import Mathlib

/-!
# Verification of the Morse audio decoder

Shallow embedding of the decode pipeline of `src/app/api/decode/decode.py`
(the repository `ksacheth/morse-code`) and proofs of the frozen claims
about it.

Numeric conventions:
* sample values, durations and thresholds are embedded as `ℚ` (the Python
  code mixes machine ints and IEEE floats; all the arithmetic the claims
  depend on is exact, so `ℚ` is a faithful model);
* the smoothing window of the envelope extractor involves the cosine, so
  that one stage is embedded over `ℝ`;
* `sklearn.cluster.KMeans(n_clusters=k, random_state=0, n_init=10)` on
  1-dimensional data is embedded as the deterministic inertia-minimising
  threshold partition of the data: for 1-D inputs the optimal k-means
  clusters are intervals of the sorted values, which is exactly what the
  multi-restart deterministic k-means of the source computes.
-/

namespace MorseDecode

/-! ## 1-D k-means model (sklearn `KMeans` on a column vector) -/

/-- Arithmetic mean of a rational list (`np.mean`); division by zero in `ℚ`
makes the mean of the empty list `0`. -/
def meanQ (l : List ℚ) : ℚ := l.sum / (l.length : ℚ)

/-- Within-cluster sum of squared deviations from the cluster mean. -/
def ssdQ (l : List ℚ) : ℚ := (l.map (fun x => (x - meanQ l) ^ 2)).sum

/-- Cluster index of `x` for an ascending list of cut values: `x` lies in
cluster `j` iff exactly `j` cuts are strictly below `x`. -/
def clusterOf (cuts : List ℚ) (x : ℚ) : ℕ := (cuts.filter (fun c => c < x)).length

/-- Total within-cluster sum of squares (k-means inertia) of the threshold
partition of `xs` induced by `cuts`. -/
def inertiaFor (cuts : List ℚ) (xs : List ℚ) : ℚ :=
  ((List.range (cuts.length + 1)).map
    (fun j => ssdQ (xs.filter (fun x => clusterOf cuts x = j)))).sum

/-- Ascending list of the distinct values of `xs` (`np.unique`). -/
def sortedDistinct (xs : List ℚ) : List ℚ := xs.dedup.insertionSort (· ≤ ·)

/-- Number of distinct values (`len(np.unique(xs))`). -/
def numDistinct (xs : List ℚ) : ℕ := (sortedDistinct xs).length

/-- First minimiser of `f` in a list; deterministic tie-break (keeps the
earlier candidate), mirroring the fixed-seed determinism of the source's
clustering calls. -/
def argminBy {α : Type} (f : α → ℚ) : List α → Option α
  | [] => none
  | [x] => some x
  | x :: y :: ys =>
    match argminBy f (y :: ys) with
    | none => some x
    | some b => if f b < f x then some b else some x

/-- Cut values of the inertia-minimising partition of `xs` into
`min k (number of distinct values)` interval clusters.  This embeds
`KMeans(n_clusters=k, random_state=0, n_init=10).fit` on the 1-D data:
candidate cuts range over the distinct values below the maximum, so every
cluster is a non-empty interval of the sorted data. -/
def bestCuts (k : ℕ) (xs : List ℚ) : List ℚ :=
  let ds := sortedDistinct xs
  let kEff := min k ds.length
  (argminBy (fun cuts => inertiaFor cuts xs) (ds.dropLast.sublistsLen (kEff - 1))).getD []

/-- Per-element cluster labels of 1-D k-means, in input order; label `j`
is the cluster with the `j`-th smallest centroid (the source permutes
sklearn's arbitrary label ids through `np.argsort(cluster_centers_)`,
which this embedding quotients away). -/
def kmeansLabels (k : ℕ) (xs : List ℚ) : List ℕ :=
  xs.map (clusterOf (bestCuts k xs))

/-- Cluster centroids of 1-D k-means, ascending (the source's
`np.sort(cluster_centers_)`). -/
def kmeansCenters (k : ℕ) (xs : List ℚ) : List ℚ :=
  (List.range (min k (numDistinct xs))).map
    (fun j => meanQ (xs.filter (fun x => clusterOf (bestCuts k xs) x = j)))

/-! ## Binarizer (`squared_signal`, decode.py lines 138-150) -/

/-- `np.max` of a rational list (`0` on the empty list, which the source
never queries because it returns early). -/
def npMax (l : List ℚ) : ℚ :=
  match l with
  | [] => 0
  | x :: xs => xs.foldl max x

/-- `squared_signal(data, threshold)`: binarize the envelope against a
threshold (default `0.5 * max`), returning the 0/1 wave and the threshold
used.  Mirrors decode.py lines 138-150 including the early
empty-input and zero-maximum returns. -/
def squared_signal (data : List ℚ) (threshold : Option ℚ) : List ℤ × ℚ :=
  if data = [] then ([], 0)
  else if npMax data = 0 then (List.replicate data.length 0, 0)
  else
    let thresholdValue := threshold.getD (npMax data / 2)
    (data.map (fun x => if thresholdValue < x then 1 else 0), thresholdValue)

/-! ## Duration extractor (`calculate_on_off_samples`, lines 154-190) -/

/-- `np.diff`: consecutive differences. -/
def diffList (l : List ℤ) : List ℤ := List.zipWith (fun a b => b - a) l l.tail

/-- `np.nonzero(l == v)[0]`: indices (as integers) where the list equals `v`. -/
def indicesEq (l : List ℤ) (v : ℤ) : List ℤ :=
  ((List.range l.length).filter (fun i => l.getD i 0 = v)).map (fun i : ℕ => (i : ℤ))

/-- Edge-index computation of `calculate_on_off_samples` (lines 158-176):
rising/falling edges from the first difference, virtual edges synthesized
when the wave starts or ends on, the leading unmatched falling edge
dropped, both lists truncated to a common length. -/
def calcEdges (sq : List ℤ) : List ℤ × List ℤ :=
  let d := diffList sq
  let rising0 := indicesEq d 1
  let falling0 := indicesEq d (-1)
  let startsOn := sq.headD 0 = 1
  let endsOn := sq.getLastD 0 = 1
  let rising1 := if startsOn then (-1 : ℤ) :: rising0 else rising0
  let falling1 := if endsOn then falling0 ++ [(sq.length : ℤ) - 1] else falling0
  let falling2 :=
    if ¬startsOn ∧ rising1 ≠ [] ∧ falling1 ≠ [] ∧ falling1.headD 0 < rising1.headD 0 then
      falling1.tail
    else falling1
  let minLen := min rising1.length falling2.length
  (rising1.take minLen, falling2.take minLen)

/-- On/off durations of `calculate_on_off_samples` *before* the final
non-positive filter (lines 178-185): paired edge differences. -/
def calcRawOnOff (sq : List ℤ) : List ℤ × List ℤ :=
  if sq = [] then ([], [])
  else
    let e := calcEdges sq
    if e.1 = [] then ([], [])
    else
      (List.zipWith (fun fa ri => fa - ri) e.2 e.1,
       if 1 < e.1.length then List.zipWith (fun ri fa => ri - fa) e.1.tail e.2.dropLast
       else [])

/-- `calculate_on_off_samples(square_wave)`: the raw durations with
non-positive entries discarded (lines 187-188). -/
def calculate_on_off_samples (sq : List ℤ) : List ℤ × List ℤ :=
  ((calcRawOnOff sq).1.filter (fun x => 0 < x), (calcRawOnOff sq).2.filter (fun x => 0 < x))

/-! ## Symbol classifier (`identify_dots_dashes`, lines 192-223) -/

/-- `identify_dots_dashes(on_samples, sample_rate)`: with at least two
distinct on-durations, 2-means labels the smaller-centroid cluster `'.'`
and the larger `'-'` (lines 211-221); with fewer, the fallback compares
the mean duration against `int(0.100 * sample_rate)` (lines 199-209;
`int` truncation is `Int.floor` for the non-negative sample rates the
program works with). -/
def identify_dots_dashes (onS : List ℚ) (rate : ℚ) : List Char :=
  if onS = [] then []
  else if min 2 (numDistinct onS) < 2 then
    let thresholdSamples : ℤ := ⌊rate / 10⌋
    if meanQ onS < (thresholdSamples : ℚ) then List.replicate onS.length '.'
    else List.replicate onS.length '-'
  else
    (kmeansLabels 2 onS).map (fun j => if j = 0 then '.' else '-')

/-! ## Space classifier (`identify_spaces`, lines 225-277) -/

/-- Result triple of `identify_spaces`: per-off-run space types,
ascending centroids, and the `[intra_label, letter_label, word_label]`
assignment handed to the grouper. -/
structure SpaceInfo where
  types : List ℤ
  centers : List ℚ
  labels : ℤ × ℤ × ℤ
deriving DecidableEq

/-- Space types of `identify_spaces` *before* the two-cluster promotion
loop (lines 242-259): the k-means label of each off-run, with sklearn's
arbitrary label ids already normalised through `argsort` so that label `j`
is the cluster with the `j`-th smallest centroid — hence
`INTRA_CHAR = 0`, `INTER_LETTER = 1`, `INTER_WORD = 2`. -/
def identify_spaces_pre (offs : List ℚ) : List ℤ :=
  (kmeansLabels (min 3 (numDistinct offs)) offs).map Int.ofNat

/-- `identify_spaces(off_samples)` (lines 229-277), including the
two-cluster promotion heuristic of lines 264-275: with exactly 2
clusters, any off-run typed `INTER_LETTER` whose raw duration exceeds
`5 *` the `INTRA_CHAR` centroid is relabeled `INTER_WORD`. -/
def identify_spaces (offs : List ℚ) : SpaceInfo :=
  if offs = [] then ⟨[], [], (-1, -1, -1)⟩
  else
    let k := min 3 (numDistinct offs)
    if k = 0 then ⟨[], [], (-1, -1, -1)⟩
    else
      let centers := kmeansCenters k offs
      let intraL : ℤ := 0
      let letterL : ℤ := if 2 ≤ k then 1 else -1
      let wordL : ℤ := if 3 ≤ k then 2 else -1
      let pre := identify_spaces_pre offs
      let types :=
        if k = 2 ∧ 2 ≤ centers.length then
          let wordThreshold := centers.headD 0 * 5
          (offs.zip pre).map (fun p => if p.2 = 1 ∧ wordThreshold < p.1 then 2 else p.2)
        else pre
      ⟨types, centers, (intraL, letterL, wordL)⟩

/-! ## Grouper (`group_morse_words`, lines 279-331) -/

/-- Outcome of `group_morse_words`: either the grouped words, or the
exception the Python function raises (caught by the pipeline's
`try`/`except`). -/
inductive GroupResult where
  | err (msg : String)
  | ok (words : List (List String))
deriving DecidableEq

/-- `np.split(l, idxs)` for an ascending index list: pieces
`l[0:i₁], l[i₁:i₂], …, l[iₖ:]`. -/
def splitAtIndices {α : Type} (l : List α) (idxs : List ℕ) : List (List α) :=
  match idxs with
  | [] => [l]
  | i :: rest => l.take i :: splitAtIndices (l.drop i) (rest.map (fun j => j - i))
termination_by idxs.length
decreasing_by simp

/-- `group_morse_words(dash_dot_characters, off_samples, space_labels)`
(lines 279-331).  The local variable `word_break_indices_in_chars` is
assigned only in the innermost `else` (lines 288-323); in the
`intra_label == -1` branch (lines 283-284) and in the
`len(off_samples) == 0` branch (lines 286-287) the later read at line 328
raises `NameError`, embedded as `GroupResult.err`.  The re-clustering of
lines 296-311 is k-means with `n_clust` = number of non-`-1` entries of
`space_labels`; cluster labels are again centroid-sorted, so the intra
cluster is label `0` and the word cluster label `2` (or `1` in the
two-cluster arm of line 318). -/
def group_morse_words (syms : List Char) (offs : List ℚ) (lab : ℤ × ℤ × ℤ) :
    GroupResult :=
  if syms = [] then .ok []
  else if lab.1 = -1 then .err "name word_break_indices_in_chars is not defined"
  else if offs = [] then .err "name word_break_indices_in_chars is not defined"
  else
    let nClust0 := ([lab.1, lab.2.1, lab.2.2].filter (fun x => x ≠ -1)).length
    let nClust := if nClust0 = 0 then 1 else nClust0
    let labels := kmeansLabels nClust offs
    let charBreaks :=
      ((List.range labels.length).filter (fun i => labels.getD i 0 ≠ 0)).map (fun i => i + 1)
    let nonIntra := labels.filter (fun j => j ≠ 0)
    let wordBreaks :=
      if lab.2.2 ≠ -1 ∧ 3 ≤ nClust then
        ((List.range nonIntra.length).filter (fun i => nonIntra.getD i 0 = 2)).map
          (fun i => i + 1)
      else if lab.2.2 ≠ -1 ∧ nClust = 2 then
        ((List.range nonIntra.length).filter (fun i => nonIntra.getD i 0 = 1)).map
          (fun i => i + 1)
      else []
    let morseChars :=
      ((splitAtIndices syms charBreaks).map (fun cs => String.mk cs)).filter (fun s => s ≠ "")
    let morseWords := (splitAtIndices morseChars wordBreaks).filter (fun w => w ≠ [])
    .ok morseWords

/-! ## Translator (`MORSE_CODE_DICT` / `translate_morse`, lines 333-350) -/

/-- The fixed code table `MORSE_CODE_DICT` (lines 333-342). -/
def MORSE_CODE_DICT (s : String) : Option String :=
  match s with
  | ".-" => some "A"
  | "-..." => some "B"
  | "-.-." => some "C"
  | "-.." => some "D"
  | "." => some "E"
  | "..-." => some "F"
  | "--." => some "G"
  | "...." => some "H"
  | ".." => some "I"
  | ".---" => some "J"
  | "-.-" => some "K"
  | ".-.." => some "L"
  | "--" => some "M"
  | "-." => some "N"
  | "---" => some "O"
  | ".--." => some "P"
  | "--.-" => some "Q"
  | ".-." => some "R"
  | "..." => some "S"
  | "-" => some "T"
  | "..-" => some "U"
  | "...-" => some "V"
  | ".--" => some "W"
  | "-..-" => some "X"
  | "-.--" => some "Y"
  | "--.." => some "Z"
  | "-----" => some "0"
  | ".----" => some "1"
  | "..---" => some "2"
  | "...--" => some "3"
  | "....-" => some "4"
  | "....." => some "5"
  | "-...." => some "6"
  | "--..." => some "7"
  | "---.." => some "8"
  | "----." => some "9"
  | ".-.-.-" => some "."
  | _ => none

/-- `translate_morse(morse_words)` (lines 344-350): each character string
looked up in the table (`'?'` when unmapped), characters joined inside a
word, words joined with a single space. -/
def translate_morse (words : List (List String)) : String :=
  String.intercalate " "
    (words.map (fun w => String.join (w.map (fun mc => (MORSE_CODE_DICT mc).getD "?"))))

/-! ## Decode pipeline from the binarized wave (`__main__`, lines 411-450) -/

/-- The `morse`/`text` pair of the structured output record. -/
structure DecodeResult where
  morse : String
  text : String
deriving DecidableEq

/-- Steps 6-7 of `__main__` (lines 411-450) from the binarized square
wave on: duration extraction, the zero-on-runs "No signal detected"
return (lines 413-427), and otherwise the `try`/`except` decode block —
classification, space labelling (`[-1, -1, -1]` when there are no
off-runs, line 431), grouping, translation — whose exceptions are
downgraded to the `"Error decoding"` result (lines 446-450). -/
def decodeFromSquare (sq : List ℤ) (rate : ℚ) : DecodeResult :=
  let od := calculate_on_off_samples sq
  if od.1 = [] then ⟨"", "No signal detected"⟩
  else
    let onQ := od.1.map (fun n : ℤ => (n : ℚ))
    let offQ := od.2.map (fun n : ℤ => (n : ℚ))
    let syms := identify_dots_dashes onQ rate
    let lab := if offQ ≠ [] then (identify_spaces offQ).labels else (-1, -1, -1)
    match group_morse_words syms offQ lab with
    | .err _ => ⟨"", "Error decoding"⟩
    | .ok ws =>
      ⟨String.intercalate " / " (ws.map (String.intercalate " ")), translate_morse ws⟩

/-! ## Top-level output shape (`__main__`, lines 379-465) -/

/-- The two shapes the program prints: the minimal error variant
(`{"error": ...}`, line 381) and the full structured record with `morse`,
`text` and visualization fields (lines 415-425 and 453-463; the
visualization payload is summarised by its normalized threshold, the one
numeric field the claims mention). -/
inductive MainOutput where
  | errVariant (msg : String)
  | record (morse text : String) (threshold : ℚ)
deriving DecidableEq

/-- Whether an output is the full structured record. -/
def MainOutput.isRecord : MainOutput → Bool
  | .errVariant _ => false
  | .record _ _ _ => true

/-- The `__main__` flow from the raw sample buffer (lines 379-465): the
empty-buffer early return of lines 380-382, then binarization,
threshold normalisation (lines 404-408) and the decode steps.  The
numeric front end — bandpass filtering and envelope extraction (stages
2-4, lines 384-401, embedded separately as `bandpass_edges` /
`smoothed_power`) — is passed in as the `frontend` parameter mapping the
sample buffer to its envelope, so that the pipeline stays in exact
arithmetic; every claim about `__main__` holds for all front ends. -/
def main_decode (frontend : List ℤ → List ℚ) (rate : ℚ) (data : List ℤ) : MainOutput :=
  if data = [] then .errVariant "Empty file"
  else
    let envelope := frontend data
    let sw := squared_signal envelope none
    let envMax := if 0 < envelope.length then npMax envelope else 1
    let thresholdNormalized := if 0 < envMax then sw.2 / envMax else 1 / 2
    let r := decodeFromSquare sw.1 rate
    .record r.morse r.text thresholdNormalized

/-! ## Bandpass conditioner (`bandpass_filter_signal`, lines 91-107) -/

/-- The clamped passband edges `(lowcut, highcut)` of
`bandpass_filter_signal` (lines 93-98): `±100 Hz` around the detected
peak, the low edge raised to `50` when `≤ 50`, the high edge replaced by
`Nyquist − 100` when `≥ Nyquist`. -/
def bandpass_edges (peak rate : ℚ) : ℚ × ℚ :=
  let lowcut := peak - 100
  let highcut := peak + 100
  let lowcut := if lowcut ≤ 50 then 50 else lowcut
  let highcut := if rate / 2 ≤ highcut then rate / 2 - 100 else highcut
  (lowcut, highcut)

/-- The filter is actually applied (the passthrough of lines 105-107 is
not taken): after normalising by the Nyquist frequency,
`low < high` and `high < 1`. -/
def bandpass_applies (peak rate : ℚ) : Prop :=
  (bandpass_edges peak rate).1 / (rate / 2) < (bandpass_edges peak rate).2 / (rate / 2) ∧
    (bandpass_edges peak rate).2 / (rate / 2) < 1

instance (peak rate : ℚ) : Decidable (bandpass_applies peak rate) := by
  unfold bandpass_applies; infer_instance

/-! ## Envelope extractor (`smoothed_power`, lines 116-136) -/

/-- `np.hanning(M)`: empty for `M = 0`, `[1]` for `M = 1`, otherwise
`0.5 − 0.5 cos(2πk/(M−1))` for `k < M`. -/
noncomputable def hanning : ℕ → List ℝ
  | 0 => []
  | 1 => [1]
  | n + 2 =>
    (List.range (n + 2)).map
      (fun k : ℕ => 1 / 2 - 1 / 2 * Real.cos (2 * Real.pi * (k : ℝ) / ((n : ℝ) + 1)))

/-- `np.convolve(a, v, mode="full")`: entry `k` is `Σᵢ a[i]·v[k−i]`,
for `k < len a + len v − 1`. -/
noncomputable def convolveFull (a v : List ℝ) : List ℝ :=
  (List.range (a.length + v.length - 1)).map
    (fun k => ((List.range a.length).map
      (fun i => if i ≤ k then a.getD i 0 * v.getD (k - i) 0 else 0)).sum)

/-- `np.convolve(a, v, mode="same")`: the centered slice of the full
convolution, of length `max (len a) (len v)`. -/
noncomputable def convolveSame (a v : List ℝ) : List ℝ :=
  ((convolveFull a v).drop ((min a.length v.length - 1) / 2)).take (max a.length v.length)

/-- `smoothed_power(data, window_size)` (lines 116-136): square the
signal, convolve (mode `"same"`) with the sum-normalised Hann window
(returning an all-zero signal of the input's length when the window sums
to zero, line 126), clamp negatives, take the square root. -/
noncomputable def smoothed_power (data : List ℝ) (windowSize : ℕ) : List ℝ :=
  if data = [] then []
  else
    let window := hanning windowSize
    if window.sum = 0 then List.replicate data.length 0
    else
      let w := window.map (fun x => x / window.sum)
      let squared := data.map (fun x => x ^ 2)
      let conv := convolveSame squared w
      (conv.map (fun x => max x 0)).map Real.sqrt

/-! ## Helper lemmas -/

lemma length_identify_dots_dashes (xs : List ℚ) (rate : ℚ) :
    (identify_dots_dashes xs rate).length = xs.length := by
  unfold identify_dots_dashes
  split
  · simp [*]
  · split
    · dsimp only
      split <;> simp
    · simp [kmeansLabels]

lemma group_morse_words_unknown_labels (syms : List Char) (offs : List ℚ)
    (h : syms ≠ []) :
    group_morse_words syms offs (-1, -1, -1) =
      .err "name word_break_indices_in_chars is not defined" := by
  unfold group_morse_words
  simp [h]

lemma decodeFromSquare_no_off_runs (sq : List ℤ) (rate : ℚ)
    (hon : (calculate_on_off_samples sq).1 ≠ [])
    (hoff : (calculate_on_off_samples sq).2 = []) :
    decodeFromSquare sq rate = ⟨"", "Error decoding"⟩ := by
  have hsyms : identify_dots_dashes ((calculate_on_off_samples sq).1.map
      (fun n : ℤ => (n : ℚ))) rate ≠ [] := by
    have hlen := length_identify_dots_dashes
      ((calculate_on_off_samples sq).1.map (fun n : ℤ => (n : ℚ))) rate
    intro hcon
    rw [hcon] at hlen
    simp only [List.length_nil, List.length_map] at hlen
    exact hon (List.length_eq_zero.mp hlen.symm)
  simp only [decodeFromSquare, if_neg hon, hoff, List.map_nil, ne_eq,
    not_true_eq_false, if_false]
  rw [group_morse_words_unknown_labels _ _ hsyms]

lemma calcEdges_length_eq (sq : List ℤ) :
    (calcEdges sq).1.length = (calcEdges sq).2.length := by
  simp only [calcEdges, List.length_take]
  omega

lemma foldl_max_le {l : List ℚ} : ∀ {a x : ℚ}, x ∈ l ∨ x = a → x ≤ l.foldl max a := by
  induction l with
  | nil =>
    intro a x hx
    rcases hx with hx | hx
    · simp at hx
    · simp [hx]
  | cons y ys ih =>
    intro a x hx
    simp only [List.foldl_cons]
    rcases hx with hx | hx
    · rcases List.mem_cons.mp hx with hxy | hxys
      · exact le_trans (hxy ▸ le_max_right a y) (ih (Or.inr rfl))
      · exact ih (Or.inl hxys)
    · exact le_trans (hx ▸ le_max_left a y) (ih (Or.inr rfl))

lemma le_npMax {l : List ℚ} {x : ℚ} (hx : x ∈ l) : x ≤ npMax l := by
  cases l with
  | nil => simp at hx
  | cons y ys =>
    rcases List.mem_cons.mp hx with h | h
    · exact foldl_max_le (Or.inr h)
    · exact foldl_max_le (Or.inl h)

lemma getD_replicate_zero : ∀ (k i : ℕ), (List.replicate k (0 : ℤ)).getD i 0 = 0 := by
  intro k
  induction k with
  | zero => intro i; simp
  | succ m ih =>
    intro i
    cases i with
    | zero => simp [List.replicate]
    | succ j =>
      rw [List.replicate_succ]
      exact ih j

lemma indicesEq_replicate_zero (k : ℕ) (v : ℤ) (hv : v ≠ 0) :
    indicesEq (List.replicate k 0) v = [] := by
  unfold indicesEq
  rw [List.map_eq_nil_iff, List.filter_eq_nil_iff]
  intro i _
  simp [getD_replicate_zero, Ne.symm hv]

lemma diffList_replicate_one : ∀ n : ℕ,
    diffList (List.replicate n (1 : ℤ)) = List.replicate (n - 1) 0 := by
  intro n
  induction n with
  | zero => rfl
  | succ m ih =>
    cases m with
    | zero => rfl
    | succ p =>
      simp only [diffList, List.replicate, List.tail_cons, List.zipWith_cons_cons,
        sub_self] at ih ⊢
      exact congrArg (0 :: ·) ih

lemma getLastD_replicate_one : ∀ n : ℕ, (List.replicate (n + 1) (1 : ℤ)).getLastD 0 = 1 := by
  intro n
  induction n with
  | zero => rfl
  | succ m ih => simpa [List.replicate, List.getLastD_cons] using ih

lemma calcEdges_replicate_one (n : ℕ) :
    calcEdges (List.replicate (n + 1) 1) = ([-1], [(n : ℤ)]) := by
  have hhead : (List.replicate (n + 1) (1 : ℤ)).headD 0 = 1 := by simp [List.replicate]
  have hlast := getLastD_replicate_one n
  unfold calcEdges
  simp only [diffList_replicate_one, indicesEq_replicate_zero _ 1 one_ne_zero,
    indicesEq_replicate_zero _ (-1) (by decide), hhead, hlast, List.length_replicate]
  norm_num

lemma calculate_on_off_replicate_one (n : ℕ) :
    calculate_on_off_samples (List.replicate (n + 1) 1) = ([(n : ℤ) + 1], []) := by
  unfold calculate_on_off_samples calcRawOnOff
  rw [if_neg (by simp [List.replicate] : List.replicate (n + 1) (1 : ℤ) ≠ [])]
  rw [calcEdges_replicate_one]
  simp only [List.cons_ne_nil, not_false_eq_true, if_neg, List.length_cons,
    List.length_nil, Nat.lt_irrefl, if_false, List.zipWith_cons_cons, List.zipWith_nil_right,
    ite_false]
  have hpos : (0 : ℤ) < (n : ℤ) - (-1) := by omega
  simp only [List.filter_cons, List.filter_nil]
  rw [decide_eq_true hpos]
  norm_num

/-! ## Claim theorems -/

/-- C1: the spec says word boundaries are placed at exactly the off-runs
the Space Classifier labels `INTER_WORD`, including entries relabeled by
the two-cluster promotion heuristic.  The code violates this: the
promoted `space_types` never reach `group_morse_words`, which derives
word breaks from the `space_labels` triple alone, whose word slot is `-1`
in every two-cluster run.  At off-durations `[30, 30, 200]` with symbols
`['.', '.', '.', '.']`, `identify_spaces` promotes the `200` entry to
`INTER_WORD` (type `2`), yet grouping returns the single word
`["...", "."]` with no word boundary. -/
theorem claim_C1 :
    identify_spaces [30, 30, 200] =
        ⟨[0, 0, 2], [30, 200], (0, 1, -1)⟩ ∧
      group_morse_words ['.', '.', '.', '.'] [30, 30, 200] (0, 1, -1) =
        .ok [["...", "."]] := by
  constructor
  · norm_num [identify_spaces, identify_spaces_pre, kmeansLabels, kmeansCenters, bestCuts,
      sortedDistinct, numDistinct, argminBy, inertiaFor, ssdQ, meanQ, clusterOf,
      List.insertionSort, List.orderedInsert, List.dedup, List.sublistsLen,
      List.sublistsLenAux, List.range_succ]
    decide
  · norm_num [group_morse_words, kmeansLabels, bestCuts, sortedDistinct, numDistinct, argminBy,
      inertiaFor, ssdQ, meanQ, clusterOf, splitAtIndices, List.insertionSort,
      List.orderedInsert, List.dedup, List.sublistsLen, List.sublistsLenAux, List.range_succ]
    decide

/-- C2 counterexample: an all-on binarized buffer does *not* yield zero
on-runs — the virtual falling edge synthesized at the buffer end produces
exactly one on-run covering the whole buffer — and the pipeline's result
is the error-flagged `"Error decoding"` record (the grouper's unbound
`word_break_indices_in_chars` read), not the `"No signal detected"`
output the claim asserts. -/
theorem claim_C2_counterexample :
    calculate_on_off_samples (List.replicate 5 1) = ([5], []) ∧
      decodeFromSquare (List.replicate 5 1) 100 = ⟨"", "Error decoding"⟩ := by
  constructor
  · norm_num [calculate_on_off_samples, calcRawOnOff, calcEdges, diffList, indicesEq,
      List.replicate, List.range_succ, List.cons_ne_nil, List.filter]
  · exact decodeFromSquare_no_off_runs _ _
      (by norm_num [calculate_on_off_samples, calcRawOnOff, calcEdges, diffList, indicesEq,
        List.replicate, List.range_succ, List.cons_ne_nil, List.filter])
      (by norm_num [calculate_on_off_samples, calcRawOnOff, calcEdges, diffList, indicesEq,
        List.replicate, List.range_succ, List.cons_ne_nil, List.filter])

/-- C2 amended: for every non-empty all-on binarized buffer of length
`n + 1`, duration extraction yields exactly one on-run of the full buffer
length (a virtual falling edge is synthesized at the last index) and zero
off-runs, and the pipeline then emits the error-flagged
`"Error decoding"` result — not the degenerate no-signal output. -/
theorem claim_C2 (n : ℕ) (rate : ℚ) :
    calculate_on_off_samples (List.replicate (n + 1) 1) = ([(n : ℤ) + 1], []) ∧
      (decodeFromSquare (List.replicate (n + 1) 1) rate).text = "Error decoding" := by
  refine ⟨calculate_on_off_replicate_one n, ?_⟩
  rw [decodeFromSquare_no_off_runs _ _ ?_ ?_]
  · rw [calculate_on_off_replicate_one]; exact List.cons_ne_nil _ _
  · rw [calculate_on_off_replicate_one]

/-- C3: whenever a non-empty symbol sequence reaches `group_morse_words`
with the space-label assignment `[-1, -1, -1]` — which the pipeline
passes exactly when there are on-runs but zero off-runs — the
`intra_label == -1` branch never assigns `word_break_indices_in_chars`,
the later read raises `NameError`, and the pipeline's `try`/`except`
downgrades the run to the `"Error decoding"` record. -/
theorem claim_C3 :
    (∀ (syms : List Char) (offs : List ℚ), syms ≠ [] →
        group_morse_words syms offs (-1, -1, -1) =
          .err "name word_break_indices_in_chars is not defined") ∧
      ∀ (sq : List ℤ) (rate : ℚ),
        (calculate_on_off_samples sq).1 ≠ [] →
        (calculate_on_off_samples sq).2 = [] →
        (decodeFromSquare sq rate).text = "Error decoding" := by
  refine ⟨fun syms offs h => group_morse_words_unknown_labels syms offs h, ?_⟩
  intro sq rate hon hoff
  rw [decodeFromSquare_no_off_runs sq rate hon hoff]

/-- C3 witness: the single-tone-burst scenario — symbols `['.']`, no
off-runs — hits the `NameError` path, and the all-on wave `[1, 1, 1]`
(one on-run, zero off-runs) decodes to `"Error decoding"`. -/
theorem claim_C3_witness :
    group_morse_words ['.'] [] (-1, -1, -1) =
        .err "name word_break_indices_in_chars is not defined" ∧
      (decodeFromSquare [1, 1, 1] 100).text = "Error decoding" := by
  constructor
  · exact claim_C3.1 ['.'] [] (by simp)
  · refine claim_C3.2 [1, 1, 1] 100 ?_ ?_
    · have h := calculate_on_off_replicate_one 2
      norm_num [List.replicate] at h
      rw [h]
      simp
    · have h := calculate_on_off_replicate_one 2
      norm_num [List.replicate] at h
      rw [h]

/-- C4: on off-durations `[30, 30, 200]` the Space Classifier picks
`k = 2` clusters with centroids `[30, 200]`; before promotion the types
are `[INTRA, INTRA, INTER_LETTER]`, and since `200 > 5 × 30` the third
entry is relabeled `INTER_WORD` while the two `30`-entries stay
`INTRA_CHAR`. -/
theorem claim_C4 :
    min 3 (numDistinct [30, 30, 200]) = 2 ∧
      identify_spaces_pre [30, 30, 200] = [0, 0, 1] ∧
      (kmeansCenters 2 [30, 30, 200]).headD 0 = 30 ∧
      (5 : ℚ) * 30 < 200 ∧
      identify_spaces [30, 30, 200] = ⟨[0, 0, 2], [30, 200], (0, 1, -1)⟩ := by
  refine ⟨?_, ?_, ?_, by norm_num, ?_⟩
  · norm_num [numDistinct, sortedDistinct, List.insertionSort, List.orderedInsert, List.dedup]
  · norm_num [identify_spaces_pre, kmeansLabels, bestCuts, sortedDistinct, numDistinct,
      argminBy, inertiaFor, ssdQ, meanQ, clusterOf, List.insertionSort, List.orderedInsert,
      List.dedup, List.sublistsLen, List.sublistsLenAux, List.range_succ]
  · norm_num [kmeansCenters, kmeansLabels, bestCuts, sortedDistinct, numDistinct,
      argminBy, inertiaFor, ssdQ, meanQ, clusterOf, List.insertionSort, List.orderedInsert,
      List.dedup, List.sublistsLen, List.sublistsLenAux, List.range_succ]
  · norm_num [identify_spaces, identify_spaces_pre, kmeansLabels, kmeansCenters, bestCuts,
      sortedDistinct, numDistinct, argminBy, inertiaFor, ssdQ, meanQ, clusterOf,
      List.insertionSort, List.orderedInsert, List.dedup, List.sublistsLen,
      List.sublistsLenAux, List.range_succ]
    decide

/-- C5: for every binary input sequence, the raw off-duration count
(before the non-positive filter) is within one of the raw on-duration
count, and after filtering every returned duration is strictly
positive. -/
theorem claim_C5 (sq : List ℤ) (_hbin : ∀ x ∈ sq, x = 0 ∨ x = 1) :
    ((calcRawOnOff sq).2.length + 1 = (calcRawOnOff sq).1.length ∨
        (calcRawOnOff sq).2.length = (calcRawOnOff sq).1.length ∨
        (calcRawOnOff sq).2.length = (calcRawOnOff sq).1.length + 1) ∧
      (∀ x ∈ (calculate_on_off_samples sq).1, 0 < x) ∧
      ∀ x ∈ (calculate_on_off_samples sq).2, 0 < x := by
  refine ⟨?_, ?_, ?_⟩
  · by_cases hsq : sq = []
    · simp [calcRawOnOff, hsq]
    · have hlen := calcEdges_length_eq sq
      simp only [calcRawOnOff, if_neg hsq]
      by_cases he : (calcEdges sq).1 = []
      · simp [he]
      · have hpos : 1 ≤ (calcEdges sq).1.length := List.length_pos.mpr he
        by_cases h2 : 1 < (calcEdges sq).1.length
        · simp only [if_neg he, if_pos h2, List.length_zipWith, List.length_tail,
            List.length_dropLast]
          omega
        · simp only [if_neg he, if_neg h2, List.length_zipWith, List.length_nil]
          omega
  · intro x hx
    simp only [calculate_on_off_samples, List.mem_filter, decide_eq_true_eq] at hx
    exact hx.2
  · intro x hx
    simp only [calculate_on_off_samples, List.mem_filter, decide_eq_true_eq] at hx
    exact hx.2

/-- C5 witness: the binary wave `[0, 1, 1, 0, 1]` satisfies the length
invariant and positivity of the filtered durations. -/
theorem claim_C5_witness :
    (∀ x ∈ [(0 : ℤ), 1, 1, 0, 1], x = 0 ∨ x = 1) ∧
      (((calcRawOnOff [0, 1, 1, 0, 1]).2.length + 1 =
            (calcRawOnOff [0, 1, 1, 0, 1]).1.length ∨
          (calcRawOnOff [0, 1, 1, 0, 1]).2.length =
            (calcRawOnOff [0, 1, 1, 0, 1]).1.length ∨
          (calcRawOnOff [0, 1, 1, 0, 1]).2.length =
            (calcRawOnOff [0, 1, 1, 0, 1]).1.length + 1) ∧
        (∀ x ∈ (calculate_on_off_samples [0, 1, 1, 0, 1]).1, 0 < x) ∧
        ∀ x ∈ (calculate_on_off_samples [0, 1, 1, 0, 1]).2, 0 < x) :=
  ⟨by decide, claim_C5 [0, 1, 1, 0, 1] (by decide)⟩

/-- C6 counterexample: for the empty input buffer the program prints the
minimal error-variant record `{"error": "Empty file"}`, which is not the
structured `morse`/`text`/visualization record the claim requires. -/
theorem claim_C6_counterexample :
    main_decode (fun _ => []) 1 [] = .errVariant "Empty file" ∧
      (main_decode (fun _ => []) 1 []).isRecord = false := by
  constructor <;> simp [main_decode, MainOutput.isRecord]

/-- C6 amended: the empty input buffer yields the minimal error-variant
record `{"error": "Empty file"}` (the run still exits successfully);
every non-empty buffer — including the degenerate no-signal and
error-decoding cases — yields the full structured record shape. -/
theorem claim_C6 (frontend : List ℤ → List ℚ) (rate : ℚ) (data : List ℤ) :
    (data = [] → main_decode frontend rate data = .errVariant "Empty file") ∧
      (data ≠ [] → (main_decode frontend rate data).isRecord = true) := by
  constructor
  · intro h
    simp [main_decode, h]
  · intro h
    simp [main_decode, h, MainOutput.isRecord]

/-- C6 witness: the empty buffer produces the error variant and the
buffer `[0]` produces the structured record. -/
theorem claim_C6_witness :
    main_decode (fun _ => []) 1 [] = .errVariant "Empty file" ∧
      (main_decode (fun _ => []) 1 [0]).isRecord = true :=
  ⟨(claim_C6 (fun _ => []) 1 []).1 rfl,
    (claim_C6 (fun _ => []) 1 [0]).2 (by simp)⟩

/-- C10 counterexample: at detected peak `349 Hz` and sample rate
`1000 Hz` the filter is applied (no passthrough) with passband
`(249, 449)`, but the high edge `449` exceeds `Nyquist − 100 = 400`: the
code only replaces the high edge by `Nyquist − 100` when it reaches
Nyquist, so the claimed bound `high ≤ Nyquist − 100` fails. -/
theorem claim_C10_counterexample :
    bandpass_applies 349 1000 ∧
      ¬ (bandpass_edges 349 1000).2 ≤ 1000 / 2 - 100 := by
  norm_num [bandpass_applies, bandpass_edges]

/-- C10 amended: whenever the filter is actually applied, the clamped low
edge is at least `50 Hz` and the high edge is strictly below Nyquist; the
high edge equals `Nyquist − 100` when the unclamped edge
`center + 100` reached Nyquist, but is otherwise only bounded by
Nyquist, not by `Nyquist − 100`. -/
theorem claim_C10 (peak rate : ℚ) (hrate : 0 < rate)
    (happ : bandpass_applies peak rate) :
    50 ≤ (bandpass_edges peak rate).1 ∧
      (bandpass_edges peak rate).2 < rate / 2 ∧
      (rate / 2 ≤ peak + 100 → (bandpass_edges peak rate).2 = rate / 2 - 100) := by
  obtain ⟨hlh, hh1⟩ := happ
  have hnyq : 0 < rate / 2 := by positivity
  have h1 : (bandpass_edges peak rate).1 =
      if peak - 100 ≤ 50 then 50 else peak - 100 := rfl
  have h2 : (bandpass_edges peak rate).2 =
      if rate / 2 ≤ peak + 100 then rate / 2 - 100 else peak + 100 := rfl
  refine ⟨?_, ?_, ?_⟩
  · rw [h1]
    split
    · exact le_refl _
    · linarith [not_le.mp (by assumption : ¬ peak - 100 ≤ 50)]
  · exact (div_lt_one hnyq).mp hh1
  · intro hclamp
    rw [h2, if_pos hclamp]

/-- C10 witness: at peak `800 Hz` and rate `44100 Hz` the filter applies
and the amended bounds hold. -/
theorem claim_C10_witness :
    (0 : ℚ) < 44100 ∧ bandpass_applies 800 44100 ∧
      (50 ≤ (bandpass_edges 800 44100).1 ∧
        (bandpass_edges 800 44100).2 < (44100 : ℚ) / 2 ∧
        ((44100 : ℚ) / 2 ≤ 800 + 100 → (bandpass_edges 800 44100).2 = (44100 : ℚ) / 2 - 100)) :=
  ⟨by norm_num, by norm_num [bandpass_applies, bandpass_edges],
    claim_C10 800 44100 (by norm_num) (by norm_num [bandpass_applies, bandpass_edges])⟩

/-- C8: the binarizer emits `1` exactly at positions where the envelope
strictly exceeds the returned threshold; the threshold defaults to half
the envelope maximum and is the caller's value when overridden; and a
zero-maximum envelope yields the all-zero wave with threshold `0`. -/
theorem claim_C8 (data : List ℚ) (thOpt : Option ℚ) :
    (squared_signal data thOpt).1.length = data.length ∧
      (∀ i, i < data.length →
        (((squared_signal data thOpt).1.getD i 0 = 1) ↔
          (squared_signal data thOpt).2 < data.getD i 0)) ∧
      (thOpt = none → npMax data ≠ 0 →
        (squared_signal data thOpt).2 = npMax data / 2) ∧
      (∀ t, thOpt = some t → npMax data ≠ 0 →
        (squared_signal data thOpt).2 = t) ∧
      (npMax data = 0 →
        (squared_signal data thOpt).1 = List.replicate data.length 0 ∧
          (squared_signal data thOpt).2 = 0) := by
  by_cases hd : data = []
  · subst hd
    refine ⟨rfl, ?_, ?_, ?_, ?_⟩
    · intro i hi
      simp at hi
    · intro _ hm
      exact absurd rfl hm
    · intro t _ hm
      exact absurd rfl hm
    · intro _
      exact ⟨rfl, rfl⟩
  · by_cases hm : npMax data = 0
    · have hout : squared_signal data thOpt = (List.replicate data.length 0, 0) := by
        unfold squared_signal
        rw [if_neg hd, if_pos hm]
      refine ⟨by rw [hout]; exact List.length_replicate _ _, ?_, ?_, ?_, ?_⟩
      · intro i hi
        rw [hout]
        constructor
        · intro h1
          rw [getD_replicate_zero] at h1
          exact absurd h1 (by decide)
        · intro hlt
          have hmem : data.getD i 0 ∈ data := by
            rw [List.getD_eq_getElem data 0 hi]
            exact List.getElem_mem hi
          have := le_npMax hmem
          rw [hm] at this
          exact absurd hlt (not_lt.mpr this)
      · intro _ hm'
        exact absurd hm hm'
      · intro t _ hm'
        exact absurd hm hm'
      · intro _
        rw [hout]
        exact ⟨rfl, rfl⟩
    · have hout : squared_signal data thOpt =
          (data.map (fun x => if thOpt.getD (npMax data / 2) < x then 1 else 0),
            thOpt.getD (npMax data / 2)) := by
        unfold squared_signal
        rw [if_neg hd, if_neg hm]
      refine ⟨by rw [hout]; exact List.length_map _ _, ?_, ?_, ?_, ?_⟩
      · intro i hi
        rw [hout]
        have hmap : (data.map (fun x => if thOpt.getD (npMax data / 2) < x
            then (1 : ℤ) else 0)).getD i 0 =
            if thOpt.getD (npMax data / 2) < data.getD i 0 then 1 else 0 := by
          rw [List.getD_eq_getElem _ 0 (by simpa using hi), List.getElem_map,
            List.getD_eq_getElem data 0 hi]
        rw [hmap]
        by_cases hp : thOpt.getD (npMax data / 2) < data.getD i 0
        · simp [hp]
        · simp [hp]
      · intro hnone _
        rw [hout, hnone]
        rfl
      · intro t ht _
        rw [hout, ht]
        rfl
      · intro hm'
        exact absurd hm' hm

/-- C8 witness: the envelope `[4, 1, 3]` with the default threshold. -/
theorem claim_C8_witness :
    ((0 : ℕ) < 3) ∧
      (((squared_signal [4, 1, 3] none).1.getD 0 0 = 1) ↔
        (squared_signal [4, 1, 3] none).2 < ([4, 1, 3] : List ℚ).getD 0 0) ∧
      npMax [4, 1, 3] ≠ 0 ∧
      (squared_signal [4, 1, 3] none).2 = npMax [4, 1, 3] / 2 :=
  ⟨by norm_num,
    (claim_C8 [4, 1, 3] none).2.1 0 (by norm_num),
    by norm_num [npMax],
    (claim_C8 [4, 1, 3] none).2.2.1 rfl (by norm_num [npMax])⟩

lemma length_hanning (n : ℕ) : (hanning n).length = n := by
  match n with
  | 0 => rfl
  | 1 => rfl
  | m + 2 => simp [hanning]

lemma length_convolveFull (a v : List ℝ) :
    (convolveFull a v).length = a.length + v.length - 1 := by
  simp [convolveFull]

lemma length_convolveSame (a v : List ℝ) (ha : a ≠ []) (hv : v ≠ []) :
    (convolveSame a v).length = max a.length v.length := by
  have hA : 1 ≤ a.length := List.length_pos.mpr ha
  have hV : 1 ≤ v.length := List.length_pos.mpr hv
  simp only [convolveSame, List.length_take, List.length_drop, length_convolveFull]
  omega

lemma hanning_three : hanning 3 = [0, 1, 0] := by
  rw [show (3 : ℕ) = 1 + 2 from rfl, hanning]
  rw [show (1 : ℕ) + 2 = 2 + 1 from rfl, List.range_succ, List.range_succ, List.range_succ,
    List.range_zero]
  simp only [List.nil_append, List.cons_append, List.map_cons, List.map_nil]
  push_cast
  rw [show (2 * Real.pi * 0 / (1 + 1) : ℝ) = 0 by ring,
    show (2 * Real.pi * 1 / (1 + 1) : ℝ) = Real.pi by ring,
    show (2 * Real.pi * 2 / (1 + 1) : ℝ) = 2 * Real.pi by ring,
    Real.cos_zero, Real.cos_pi, Real.cos_two_pi]
  norm_num

/-- C9 counterexample: the input `[1]` (length 1) with the pipeline's
smoothing window of 3 samples produces an envelope of length 3, not 1:
NumPy's mode-`"same"` convolution returns `max(len(input), len(window))`
values, so an input shorter than the window grows. -/
theorem claim_C9_counterexample :
    (smoothed_power [1] 3).length = 3 ∧ ([(1 : ℝ)] : List ℝ).length = 1 := by
  refine ⟨?_, rfl⟩
  have hsum : (hanning 3).sum = 1 := by
    rw [hanning_three]
    norm_num
  unfold smoothed_power
  rw [if_neg (by simp)]
  simp only [hsum]
  rw [if_neg (by norm_num)]
  simp only [List.length_map]
  rw [length_convolveSame]
  · simp [length_hanning]
  · simp
  · have : (hanning 3).map (fun x => x / (hanning 3).sum) ≠ [] := by
      rw [hanning_three]
      simp
    simpa using this

/-- C9 amended: the envelope has the input's length whenever the input is
at least as long as the smoothing window (this covers every in-spec call,
where the window is 1% of the sample rate); when a nonzero-sum window is
longer than the input, the output instead has the window's length, so the
same-length claim fails exactly for inputs shorter than the window. -/
theorem claim_C9 (data : List ℝ) (windowSize : ℕ) (hne : data ≠ [])
    (hws : windowSize ≤ data.length) :
    (smoothed_power data windowSize).length = data.length := by
  unfold smoothed_power
  rw [if_neg hne]
  by_cases hsum : (hanning windowSize).sum = 0
  · rw [if_pos hsum]
    exact List.length_replicate _ _
  · rw [if_neg hsum]
    have hwpos : 1 ≤ windowSize := by
      rcases Nat.eq_zero_or_pos windowSize with h0 | h1
      · exact absurd (by rw [h0]; rfl) hsum
      · exact h1
    simp only [List.length_map]
    rw [length_convolveSame]
    · simp only [List.length_map, length_hanning]
      omega
    · simp [hne]
    · have : ((hanning windowSize).map (fun x => x / (hanning windowSize).sum)).length =
          windowSize := by
        simp [length_hanning]
      intro hcon
      rw [hcon] at this
      simp at this
      omega

/-- C9 witness: a two-sample input with a one-sample window keeps its
length. -/
theorem claim_C9_witness :
    ([(1 : ℝ), 2] ≠ []) ∧ (1 ≤ ([(1 : ℝ), 2] : List ℝ).length) ∧
      (smoothed_power [1, 2] 1).length = ([(1 : ℝ), 2] : List ℝ).length :=
  ⟨by simp, by norm_num, claim_C9 [1, 2] 1 (by simp) (by norm_num)⟩

/-! ## Lemmas about the 1-D k-means model, used for the symbol classifier -/

lemma argminBy_eq_some_mem {α : Type} (f : α → ℚ) :
    ∀ (l : List α), l ≠ [] → ∃ x, argminBy f l = some x ∧ x ∈ l := by
  intro l
  induction l with
  | nil => intro h; exact absurd rfl h
  | cons a t ih =>
    intro _
    cases t with
    | nil => exact ⟨a, rfl, List.mem_singleton_self a⟩
    | cons b m =>
      obtain ⟨x, hx, hmem⟩ := ih (List.cons_ne_nil b m)
      simp only [argminBy, hx]
      by_cases hf : f x < f a
      · exact ⟨x, by rw [if_pos hf], List.mem_cons_of_mem a hmem⟩
      · exact ⟨a, by rw [if_neg hf], List.mem_cons_self a _⟩

lemma sortedDistinct_sorted (xs : List ℚ) : (sortedDistinct xs).Sorted (· ≤ ·) :=
  List.sorted_insertionSort (· ≤ ·) xs.dedup

lemma sortedDistinct_nodup (xs : List ℚ) : (sortedDistinct xs).Nodup :=
  ((List.perm_insertionSort (· ≤ ·) xs.dedup).nodup_iff).mpr (List.nodup_dedup xs)

lemma mem_sortedDistinct {xs : List ℚ} {c : ℚ} : c ∈ sortedDistinct xs ↔ c ∈ xs := by
  rw [sortedDistinct, (List.perm_insertionSort (· ≤ ·) xs.dedup).mem_iff, List.mem_dedup]

lemma exists_gt_of_mem_dropLast :
    ∀ (l : List ℚ), l.Sorted (· ≤ ·) → l.Nodup → ∀ c ∈ l.dropLast, ∃ y ∈ l, c < y := by
  intro l
  induction l with
  | nil => intro _ _ c hc; simp at hc
  | cons a t ih =>
    intro hs hn c hc
    cases t with
    | nil => simp at hc
    | cons b m =>
      rw [List.dropLast_cons₂, List.mem_cons] at hc
      rcases hc with hca | hcd
      · refine ⟨b, List.mem_cons_of_mem a (List.mem_cons_self b m), ?_⟩
        have hab : a ≤ b := (List.sorted_cons.mp hs).1 b (List.mem_cons_self b m)
        have hne : a ≠ b := by
          intro hE
          exact (List.nodup_cons.mp hn).1 (hE ▸ List.mem_cons_self b m)
        exact hca ▸ lt_of_le_of_ne hab hne
      · obtain ⟨y, hy, hlt⟩ := ih (List.sorted_cons.mp hs).2 (List.nodup_cons.mp hn).2 c hcd
        exact ⟨y, List.mem_cons_of_mem a hy, hlt⟩

lemma bestCuts_two {xs : List ℚ} (h2 : 2 ≤ numDistinct xs) :
    ∃ c, bestCuts 2 xs = [c] ∧ c ∈ (sortedDistinct xs).dropLast := by
  have hmin : min 2 (sortedDistinct xs).length = 2 := by
    rw [min_eq_left]
    exact h2
  have hlen : ((sortedDistinct xs).dropLast.sublistsLen (2 - 1)).length =
      ((sortedDistinct xs).dropLast.length).choose 1 := List.length_sublistsLen ..
  have hne : (sortedDistinct xs).dropLast.sublistsLen (2 - 1) ≠ [] := by
    intro hcon
    rw [hcon] at hlen
    have hd : 1 ≤ (sortedDistinct xs).dropLast.length := by
      rw [List.length_dropLast]
      unfold numDistinct at h2
      omega
    have := Nat.choose_pos hd
    simp at hlen
    omega
  obtain ⟨x, hx, hmem⟩ :=
    argminBy_eq_some_mem (fun cuts => inertiaFor cuts xs) _ hne
  obtain ⟨hsub, hlen1⟩ := List.mem_sublistsLen.mp hmem
  obtain ⟨c, rfl⟩ := List.length_eq_one.mp hlen1
  refine ⟨c, ?_, hsub.subset (List.mem_singleton_self c)⟩
  unfold bestCuts
  simp only [hmin]
  rw [hx]
  rfl

lemma clusterOf_single (c x : ℚ) : clusterOf [c] x = if c < x then 1 else 0 := by
  unfold clusterOf
  by_cases h : c < x
  · rw [if_pos h]
    simp [List.filter, h]
  · rw [if_neg h]
    simp [List.filter, h]

lemma identify_eq_threshold_map {xs : List ℚ} {c : ℚ} (rate : ℚ) (hne : xs ≠ [])
    (h2 : 2 ≤ numDistinct xs) (hcut : bestCuts 2 xs = [c]) :
    identify_dots_dashes xs rate = xs.map (fun x => if x ≤ c then '.' else '-') := by
  unfold identify_dots_dashes
  rw [if_neg hne, if_neg (by omega)]
  unfold kmeansLabels
  rw [hcut, List.map_map]
  refine List.map_congr_left ?_
  intro x _
  simp only [Function.comp_apply, clusterOf_single]
  by_cases h : c < x
  · rw [if_pos h, if_neg (not_le.mpr h)]
    norm_num
  · rw [if_neg h, if_pos (not_lt.mp h)]
    norm_num

lemma meanQ_le_of_forall_le {l : List ℚ} {c : ℚ} (hne : l ≠ [])
    (h : ∀ x ∈ l, x ≤ c) : meanQ l ≤ c := by
  have hsum : l.sum ≤ (l.length : ℚ) * c := by
    have := List.sum_le_card_nsmul l c h
    rwa [nsmul_eq_mul] at this
  have hpos : (0 : ℚ) < (l.length : ℚ) := by
    exact_mod_cast List.length_pos.mpr hne
  rw [meanQ, div_le_iff₀ hpos]
  linarith

lemma lt_meanQ_of_forall_lt {l : List ℚ} {c : ℚ} (hne : l ≠ [])
    (h : ∀ x ∈ l, c < x) : c < meanQ l := by
  obtain ⟨a, t, rfl⟩ := List.exists_cons_of_ne_nil hne
  have ht : (t.length : ℚ) * c ≤ t.sum := by
    have := List.card_nsmul_le_sum t c
      (fun x hx => le_of_lt (h x (List.mem_cons_of_mem a hx)))
    rwa [nsmul_eq_mul] at this
  have ha : c < a := h a (List.mem_cons_self a t)
  have hpos : (0 : ℚ) < ((a :: t).length : ℚ) := by
    exact_mod_cast List.length_pos.mpr (List.cons_ne_nil a t)
  rw [meanQ, lt_div_iff₀ hpos]
  simp only [List.length_cons, List.sum_cons]
  push_cast
  linarith

lemma meanQ_perm {xs ys : List ℚ} (h : xs.Perm ys) : meanQ xs = meanQ ys := by
  rw [meanQ, meanQ, h.sum_eq, h.length_eq]

lemma ssdQ_perm {xs ys : List ℚ} (h : xs.Perm ys) : ssdQ xs = ssdQ ys := by
  rw [ssdQ, ssdQ, meanQ_perm h]
  exact (h.map _).sum_eq

lemma inertiaFor_perm (cuts : List ℚ) {xs ys : List ℚ} (h : xs.Perm ys) :
    inertiaFor cuts xs = inertiaFor cuts ys := by
  unfold inertiaFor
  congr 1
  refine List.map_congr_left ?_
  intro j _
  exact ssdQ_perm (h.filter _)

lemma sortedDistinct_perm {xs ys : List ℚ} (h : xs.Perm ys) :
    sortedDistinct xs = sortedDistinct ys := by
  refine List.eq_of_perm_of_sorted ?_ (sortedDistinct_sorted xs) (sortedDistinct_sorted ys)
  exact ((List.perm_insertionSort _ _).trans h.dedup).trans
    (List.perm_insertionSort _ _).symm

lemma bestCuts_perm (k : ℕ) {xs ys : List ℚ} (h : xs.Perm ys) :
    bestCuts k xs = bestCuts k ys := by
  unfold bestCuts
  rw [sortedDistinct_perm h]
  have hf : (fun cuts => inertiaFor cuts xs) = fun cuts => inertiaFor cuts ys :=
    funext fun cuts => inertiaFor_perm cuts h
  rw [hf]

lemma numDistinct_perm {xs ys : List ℚ} (h : xs.Perm ys) :
    numDistinct xs = numDistinct ys := by
  rw [numDistinct, numDistinct, sortedDistinct_perm h]

/-- C7: with at least two distinct on-durations the symbol classifier is
an order-preserving threshold map: there is a cut value `c` (a data point
that is not the maximum) such that every duration `≤ c` — the cluster
with the strictly smaller centroid — is labeled DOT and every duration
`> c` is labeled DASH, and the same value-determined labelling results
for any reordering of the input; with a single distinct value, all
durations get DOT exactly when the mean is below
`int(0.100 * sample_rate)` samples, and DASH otherwise. -/
theorem claim_C7 (xs : List ℚ) (rate : ℚ) (hne : xs ≠ []) :
    (identify_dots_dashes xs rate).length = xs.length ∧
      (2 ≤ numDistinct xs →
        ∃ c, c ∈ xs ∧ (∃ y ∈ xs, c < y) ∧
          identify_dots_dashes xs rate = xs.map (fun x => if x ≤ c then '.' else '-') ∧
          meanQ (xs.filter (fun x => x ≤ c)) < meanQ (xs.filter (fun x => c < x)) ∧
          ∀ ys, xs.Perm ys →
            identify_dots_dashes ys rate = ys.map (fun x => if x ≤ c then '.' else '-')) ∧
      (numDistinct xs = 1 →
        identify_dots_dashes xs rate = List.replicate xs.length
          (if meanQ xs < ((⌊rate / 10⌋ : ℤ) : ℚ) then '.' else '-')) := by
  refine ⟨length_identify_dots_dashes xs rate, ?_, ?_⟩
  · intro h2
    obtain ⟨c, hcut, hcd⟩ := bestCuts_two h2
    have hcx : c ∈ xs :=
      mem_sortedDistinct.mp ((List.dropLast_sublist _).subset hcd)
    have hgt : ∃ y ∈ xs, c < y := by
      obtain ⟨y, hy, hlt⟩ := exists_gt_of_mem_dropLast (sortedDistinct xs)
        (sortedDistinct_sorted xs) (sortedDistinct_nodup xs) c hcd
      exact ⟨y, mem_sortedDistinct.mp hy, hlt⟩
    refine ⟨c, hcx, hgt, identify_eq_threshold_map rate hne h2 hcut, ?_, ?_⟩
    · have hlowne : xs.filter (fun x => x ≤ c) ≠ [] := by
        refine List.ne_nil_of_mem (a := c) ?_
        rw [List.mem_filter]
        exact ⟨hcx, by simp⟩
      obtain ⟨y, hy, hlt⟩ := hgt
      have hupne : xs.filter (fun x => c < x) ≠ [] := by
        refine List.ne_nil_of_mem (a := y) ?_
        rw [List.mem_filter]
        exact ⟨hy, by simp [hlt]⟩
      have hlow : meanQ (xs.filter (fun x => x ≤ c)) ≤ c := by
        refine meanQ_le_of_forall_le hlowne ?_
        intro x hx
        have := (List.mem_filter.mp hx).2
        simpa using this
      have hup : c < meanQ (xs.filter (fun x => c < x)) := by
        refine lt_meanQ_of_forall_lt hupne ?_
        intro x hx
        have := (List.mem_filter.mp hx).2
        simpa using this
      exact lt_of_le_of_lt hlow hup
    · intro ys hperm
      have hyne : ys ≠ [] := by
        intro hcon
        rw [hcon] at hperm
        exact hne (List.Perm.eq_nil hperm)
      have hy2 : 2 ≤ numDistinct ys := numDistinct_perm hperm ▸ h2
      have hycut : bestCuts 2 ys = [c] := bestCuts_perm 2 hperm ▸ hcut
      exact identify_eq_threshold_map rate hyne hy2 hycut
  · intro h1
    unfold identify_dots_dashes
    rw [if_neg hne, if_pos (by omega)]
    dsimp only
    by_cases hmean : meanQ xs < ((⌊rate / 10⌋ : ℤ) : ℚ)
    · rw [if_pos hmean, if_pos hmean]
    · rw [if_neg hmean, if_neg hmean]

/-- C7 witness: the two-cluster input `[50, 150, 50]` (dot cluster `{50}`,
dash cluster `{150}`) and, for the fallback clause, a singleton check via
the length conjunct. -/
theorem claim_C7_witness :
    ([(50 : ℚ), 150, 50] ≠ []) ∧
      (identify_dots_dashes [50, 150, 50] 44100).length = 3 ∧
      (2 ≤ numDistinct [(50 : ℚ), 150, 50]) ∧
      (∃ c, c ∈ [(50 : ℚ), 150, 50] ∧ (∃ y ∈ [(50 : ℚ), 150, 50], c < y) ∧
        identify_dots_dashes [50, 150, 50] 44100 =
          ([(50 : ℚ), 150, 50]).map (fun x => if x ≤ c then '.' else '-') ∧
        meanQ (([(50 : ℚ), 150, 50]).filter (fun x => x ≤ c)) <
          meanQ (([(50 : ℚ), 150, 50]).filter (fun x => c < x)) ∧
        ∀ ys, ([(50 : ℚ), 150, 50]).Perm ys →
          identify_dots_dashes ys 44100 = ys.map (fun x => if x ≤ c then '.' else '-')) := by
  have h2 : 2 ≤ numDistinct [(50 : ℚ), 150, 50] := by
    norm_num [numDistinct, sortedDistinct, List.insertionSort, List.orderedInsert, List.dedup]
  refine ⟨by simp, ?_, h2, (claim_C7 [50, 150, 50] 44100 (by simp)).2.1 h2⟩
  rw [(claim_C7 [50, 150, 50] 44100 (by simp)).1]
  rfl

end MorseDecode
